import Mathlib


/-!
Verification development for the XMind ⇄ Markdown converter (`server.js`).

The engine is embedded shallowly: strings are `List Char`, lines are the
result of splitting on `'\n'` (as `String.prototype.split('\n')` does),
and each JS function is translated to an executable Lean definition of the
same name.  JavaScript regular expressions used by the source are simple
enough to admit deterministic scanning models; each model is justified in
a comment next to its definition.
-/
namespace XmindMd

















abbrev Line := List Char

/-- ASCII fragment of the JS `\s` character class (the source never feeds
non-ASCII whitespace through the patterns; lines contain no `'\n'`). -/
def isWs (c : Char) : Bool :=
  c = ' ' || c = '\t' || c = '\r' || c = '\n' || c = '\x0b' || c = '\x0c'

/-- Drop leading whitespace, as the leading half of `String.prototype.trim`. -/
def dropWs (l : Line) : Line := l.dropWhile isWs

/-- JS `String.prototype.trimEnd`. -/
def trimEndL (l : Line) : Line := (dropWs l.reverse).reverse

/-- JS `String.prototype.trim`. -/
def trimL (l : Line) : Line := trimEndL (dropWs l)

/-- JS `str.split('\n')`: always returns at least one piece, pieces contain
no `'\n'`. -/
def splitLines : List Char → List Line
  | [] => [[]]
  | c :: cs =>
    if c = '\n' then [] :: splitLines cs
    else
      match splitLines cs with
      | l :: ls => (c :: l) :: ls
      | [] => [[c]]

/-- JS `arr.join('\n')`. -/
def joinLines : List Line → List Char
  | [] => []
  | [l] => l
  | l :: ls => l ++ '\n' :: joinLines ls

/-- Model of `line.match(/^(#\x7b1,6\x7d)\s+(.+)$/)`, returning `(level, title)` with
`title = m[2].trim()` as the callers compute it.  The regex is
deterministic here: `#{1,6}` greedy over the leading `'#'` run (seven or
more hashes make every backtracking alternative place a `'#'` where `\s`
is required, so the whole match fails), then at least one whitespace
character, then a non-empty remainder.  Callers always pass a fully
trimmed line, on which `\s+` greedy followed by `(.+)$` succeeds exactly
when a non-whitespace character remains. -/
def headerOf (l : Line) : Option (Nat × Line) :=
  let hashes := l.takeWhile (fun c => c = '#')
  let rest := l.dropWhile (fun c => c = '#')
  if 1 ≤ hashes.length ∧ hashes.length ≤ 6 then
    match rest with
    | c :: _ =>
      if isWs c then
        if rest.dropWhile isWs = [] then none
        else some (hashes.length, trimL (rest.dropWhile isWs))
      else none
    | [] => none
  else none

/-- Model of `line.match(/^(\s*)([-*+])\s+(.+)$/)`, returning
`(indent = m[1].length, title = m[3].trim())`.  Deterministic for the
trimEnd-ed lines the parser feeds it: `\s*` greedy is the maximal leading
whitespace run (backtracking cannot help since a shorter run exposes a
whitespace character where `[-*+]` is required), then the bullet
character, at least one whitespace, and a non-empty remainder. -/
def bulletOf (l : Line) : Option (Nat × Line) :=
  let indent := l.takeWhile isWs
  let rest := l.dropWhile isWs
  match rest with
  | c :: rest2 =>
    if c = '-' || c = '*' || c = '+' then
      match rest2 with
      | d :: _ =>
        if isWs d then
          if rest2.dropWhile isWs = [] then none
          else some (indent.length, trimL (rest2.dropWhile isWs))
        else none
      | [] => none
    else none
  | [] => none

/-- Canonical tree node built by `parseMarkdownToStructure`.  In the JS
objects the `note` field is absent until first assigned and every
consumer tests it for truthiness, so the empty list faithfully models
"no note". -/
inductive Node where
  | mk (title : Line) (note : Line) (children : List Node)
deriving Repr

def Node.title : Node → Line
  | .mk t _ _ => t

def Node.note : Node → Line
  | .mk _ n _ => n

def Node.children : Node → List Node
  | .mk _ _ c => c

/-- One entry of the parser's `pathStack`: a node still under
construction.  In JS the stack holds references into the tree being
built and children are attached at push time; here a frame keeps the
children accumulated so far and a frame is folded into its parent when
popped, which yields the same trees in the same order (a parent only
ever gains a new child after the previously pushed child has been fully
built and popped). -/
structure Frame where
  title : Line
  note : Line
  children : List Node
deriving Repr

def Frame.close (f : Frame) : Node := Node.mk f.title f.note f.children

/-- The loop `while (pathStack.length > adjustedLevel) pathStack.pop()`, merging
each popped frame into the frame below it (head of the list is the
stack top).  Each iteration shortens the stack, so running the loop
with fuel equal to the initial stack length is exact; the fuel only
makes the recursion structural. -/
def popToGo (d : Nat) : Nat → List Frame → List Frame
  | 0, s => s
  | _ + 1, [] => []
  | _ + 1, [f] => [f]
  | fuel + 1, f :: g :: rest =>
    if d < (f :: g :: rest).length then
      popToGo d fuel ({ g with children := g.children ++ [f.close] } :: rest)
    else f :: g :: rest

def popTo (d : Nat) (s : List Frame) : List Frame := popToGo d s.length s

/-- Model of `pathStack.push(node)` after creating a fresh node with the title and no children. -/
def pushFrame (t : Line) (s : List Frame) : List Frame :=
  { title := t, note := [], children := [] } :: s

/-- Model of `structure.title = title` — the bottom of the stack is the root. -/
def setRootTitle (t : Line) : List Frame → List Frame
  | [] => []
  | [f] => [{ f with title := t }]
  | f :: g :: rest => f :: setRootTitle t (g :: rest)

/-- The plain-text branch of the parser, acting on the stack top. -/
def plainText (line : Line) : List Frame → List Frame
  | [] => []
  | f :: rest =>
    match f.children with
    | [] =>
      { f with note := if f.note = [] then line else f.note ++ '\n' :: line } :: rest
    | _ :: _ =>
      { f with children := f.children ++ [Node.mk line [] []] } :: rest

structure PState where
  stack : List Frame
  firstH1Found : Bool
deriving Repr

/-- Model of `raw.replace(/\r$/, '').trimEnd()`. -/
def preprocessLine (raw : Line) : Line :=
  trimEndL (if raw.getLast? = some '\r' then raw.dropLast else raw)

def defaultRootTitle : Line := "Markdown 思维导图".toList

/-- One iteration of the `for (let raw of lines)` loop of
`parseMarkdownToStructure`.  The source's `if (pathStack.length === 0)
pathStack.push(structure)` guards are unreachable (the pop target is
always at least 1) and are not modelled. -/
def parseStep (s : PState) (raw : Line) : PState :=
  let line := preprocessLine raw
  if trimL line = [] then s
  else
    match headerOf (trimL line) with
    | some (level, title) =>
      if level = 1 ∧ s.firstH1Found = false then
        { stack := setRootTitle title (popTo 1 s.stack), firstH1Found := true }
      else
        let adjustedLevel := if level = 1 then 1 else level - 1
        let adjustedLevel := if adjustedLevel < 1 then 1 else adjustedLevel
        { s with stack := pushFrame title (popTo adjustedLevel s.stack) }
    | none =>
      match bulletOf line with
      | some (indent, title) =>
        let level := indent / 2 + 1
        { s with stack := pushFrame title (popTo level s.stack) }
      | none =>
        if 1 < s.stack.length then { s with stack := plainText line s.stack } else s

def initState : PState :=
  { stack := [{ title := defaultRootTitle, note := [], children := [] }],
    firstH1Found := false }

/-- Collapse the remaining open frames into the root node.  In JS the
tree is already attached below `structure`; popping every frame above
the root reproduces it. -/
def finalizeFrames (s : List Frame) : Node :=
  match popTo 1 s with
  | [f] => f.close
  | _ => Node.mk defaultRootTitle [] []

/-- Model of `parseMarkdownToStructure`. -/
def markdownToTree (text : List Char) : Node :=
  finalizeFrames ((splitLines text).foldl parseStep initState).stack

/-! Root-title tracking for the parser. -/
/-- The root of the parse is the bottom frame of the stack. -/
def stackRootTitle (s : List Frame) : Option Line := s.getLast?.map Frame.title

/-- The title of a level-1 heading line, after the parser's per-line
normalisation. -/
def h1Title? (raw : Line) : Option Line :=
  match headerOf (trimL (preprocessLine raw)) with
  | some (1, t) => some t
  | _ => none

/-! The heading restructurer `convertMdToMd`. -/
def unclassified : Line := "未分类".toList

/-- The `headers` array: `[lineIndex, level, title]` for every line whose
trim matches the heading pattern. -/
def buildHeaders : Nat → List Line → List (Nat × Nat × Line)
  | _, [] => []
  | i, l :: ls =>
    match headerOf (trimL l) with
    | some (lv, t) => (i, lv, t) :: buildHeaders (i + 1) ls
    | none => buildHeaders (i + 1) ls

/-- Model of `findParentH2`: scan backwards from the entry before position `j` for
the nearest header of level exactly 2.  The argument is the list of
headers strictly before position `j`, scanned from its end. -/
def findParentH2 (pre : List (Nat × Nat × Line)) : Line :=
  match pre.reverse.find? (fun h => h.2.1 == 2) with
  | some h => h.2.2
  | none => unclassified

/-- The inner `for (let j = 0; ...; j++) { if (headers[j][0] === i) ...
break; }` search: the first header whose line number is `i`, together
with the headers scanned past before it (those at positions `< j`). -/
def lookupHdr (i : Nat) :
    List (Nat × Nat × Line) → Option (List (Nat × Nat × Line) × (Nat × Nat × Line))
  | [] => none
  | h :: rest =>
    if h.1 = i then some ([], h)
    else (lookupHdr i rest).map (fun pf => (h :: pf.1, pf.2))

def hdr2 (lab : Line) : Line := '#' :: '#' :: ' ' :: lab

/-- The body of the reconstruction loop for line `i`. -/
def convertLine (headers : List (Nat × Nat × Line)) (i : Nat) (line : Line) : List Line :=
  match lookupHdr i headers with
  | some (pre, h) =>
    if h.2.1 = 2 then []
    else if h.2.1 = 3 then [hdr2 (findParentH2 pre), line]
    else [line]
  | none => [line]

def flatMapL {α β : Type} (f : α → List β) : List α → List β
  | [] => []
  | a :: as => f a ++ flatMapL f as

def enumFrom {α : Type} : Nat → List α → List (Nat × α)
  | _, [] => []
  | i, a :: as => (i, a) :: enumFrom (i + 1) as

def convertLines (ls : List Line) : List Line :=
  flatMapL (fun p => convertLine (buildHeaders 0 ls) p.1 p.2) (enumFrom 0 ls)

/-- Model of `convertMdToMd`. -/
def convertMdToMd (content : List Char) : List Char :=
  joinLines (convertLines (splitLines content))

/-- The claim's line-by-line description of the restructurer, carrying
the running section label (the title of the nearest preceding level-2
heading in the heading list, initially the default label): level-2
heading lines are dropped (and update the label), a synthesized level-2
heading line precedes every level-3 heading line, all other lines pass
through unchanged. -/
def restructureSpec (lab : Line) : List Line → List Line
  | [] => []
  | l :: ls =>
    match headerOf (trimL l) with
    | some (lv, t) =>
      if lv = 2 then restructureSpec t ls
      else if lv = 3 then hdr2 lab :: l :: restructureSpec lab ls
      else l :: restructureSpec lab ls
    | none => l :: restructureSpec lab ls

/-- A line has neither leading nor trailing whitespace. -/
def TrimmedP (l : Line) : Prop := dropWs l = l ∧ dropWs l.reverse = l.reverse

instance (l : Line) : Decidable (TrimmedP l) := by
  unfold TrimmedP; infer_instance

/-! Package entities (`content.json` shapes) and the XMind side of the
converter. -/
/-- A topic as consumed/produced by the converter.  The fields are
exactly the object paths the source consults: `notesPlain` models
`notes.plain.content` (present iff the whole chain exists and is a
string), `noteField` a flat `note` string field, `attached`/`detached`
model `children.attached`/`children.detached` (presence of the field,
independent of emptiness).  Written topics carry generated ids; ids are
opaque and never compared. -/
structure Topic where
  id : Nat
  title : Line
  notesPlain : Option Line
  noteField : Option Line
  attached : Option (List Topic)
  detached : Option (List Topic)

/-- Model of `getChildren`: attached children, else detached, else none
— note an empty-but-present `attached` array is truthy in JS, so it is
returned as-is, which coincides with the empty list. -/
def getChildren (t : Topic) : List Topic :=
  match t.attached with
  | some l => l
  | none =>
    match t.detached with
    | some l => l
    | none => []

/-- Model of `getNote`. -/
def getNote (t : Topic) : Line :=
  match t.notesPlain with
  | some s => s
  | none =>
    match t.noteField with
    | some s => s
    | none => []

def untitled : Line := "未命名主题".toList

/-- Model of `topic.title || '未命名主题'`. -/
def displayTitle (t : Topic) : Line := if t.title = [] then untitled else t.title

def hashRep (n : Nat) : Line := List.replicate n '#'

/-- Model of `'  '.repeat(k)`: `2*k` spaces. -/
def spaceRep (k : Nat) : Line := List.replicate (2 * k) ' '

/-- The note block emitted by `toHeaderMd`: a blank line, each note line
blockquoted, a blank line. -/
def noteBlockH (t : Topic) : List Line :=
  match trimL (getNote t) with
  | [] => []
  | c :: cs => ([] : Line) :: (splitLines (c :: cs)).map (fun nl => '>' :: ' ' :: nl) ++ [[]]

/-- The note block emitted by `toListMd`: blockquote lines indented to
the node's level, no blank padding. -/
def noteBlockL (t : Topic) (level : Nat) : List Line :=
  match trimL (getNote t) with
  | [] => []
  | c :: cs => (splitLines (c :: cs)).map (fun nl => spaceRep level ++ '>' :: ' ' :: nl)

mutual
/-- Model of `toHeaderMd` (output as the list of pushed lines).  The
source walks the children through `getChildren`; the inner match
inlines that helper so the recursion is structural —
`toHeaderMd_children` restates it through `getChildren`. -/
def toHeaderMd : Topic → Nat → List Line
  | ⟨i, title, np, nf, attached, detached⟩, level =>
    (if level ≤ 6 then
      [hashRep level ++ ' ' :: displayTitle ⟨i, title, np, nf, attached, detached⟩]
     else
      [spaceRep (level - 7) ++ '-' :: ' ' :: displayTitle ⟨i, title, np, nf, attached, detached⟩])
    ++ noteBlockH ⟨i, title, np, nf, attached, detached⟩
    ++ (match attached with
        | some l => toHeaderMdList l (level + 1)
        | none =>
          match detached with
          | some l => toHeaderMdList l (level + 1)
          | none => [])
    ++ (if level ≤ 3 then [([] : Line)] else [])
def toHeaderMdList : List Topic → Nat → List Line
  | [], _ => []
  | c :: cs, lv => toHeaderMd c lv ++ toHeaderMdList cs lv
end

mutual
/-- Model of `toListMd`, same conventions as `toHeaderMd`. -/
def toListMd : Topic → Nat → List Line
  | ⟨i, title, np, nf, attached, detached⟩, level =>
    (if level = 0 then
      ['#' :: ' ' :: displayTitle ⟨i, title, np, nf, attached, detached⟩, ([] : Line)]
     else
      [spaceRep (level - 1) ++ '-' :: ' ' :: displayTitle ⟨i, title, np, nf, attached, detached⟩])
    ++ noteBlockL ⟨i, title, np, nf, attached, detached⟩ level
    ++ (match attached with
        | some l => toListMdList l (level + 1)
        | none =>
          match detached with
          | some l => toListMdList l (level + 1)
          | none => [])
def toListMdList : List Topic → Nat → List Line
  | [], _ => []
  | c :: cs, lv => toListMd c lv ++ toListMdList cs lv
end

/-- A sheet object: the reader accepts `rootTopic` or a legacy `topic`
field. -/
structure SheetJ where
  id : Nat
  title : Line
  rootTopic : Option Topic
  topic : Option Topic

inductive MdFormat where
  | header
  | list
deriving Repr, DecidableEq

/-- Model of `sheet.rootTopic || sheet.topic`. -/
def sheetTopic (sh : SheetJ) : Option Topic :=
  match sh.rootTopic with
  | some t => some t
  | none => sh.topic

/-- The per-sheet loop and final `outputs.join('\n')` of
`xmindZipToMarkdown` (any format other than `'list'` renders headers). -/
def sheetsToMarkdown (sheets : List SheetJ) (format : MdFormat) : List Char :=
  joinLines ((sheets.filterMap sheetTopic).map
    (fun t => joinLines (match format with
      | MdFormat.list => toListMd t 0
      | MdFormat.header => toHeaderMd t 1)))

mutual
/-- Model of `buildTopic` of `buildXMindZipFromStructure`; `uid()` is modelled by
a counter threaded through the construction (ids are opaque and never
compared).  `node.title || ''` is the identity on our `Line` titles. -/
def buildTopic : Node → Nat → Topic × Nat
  | Node.mk title note children, ctr =>
    let r := buildTopics children (ctr + 1)
    ({ id := ctr, title := title,
       notesPlain := if note = [] then none else some note,
       noteField := none,
       attached := if r.1.isEmpty then none else some r.1,
       detached := none }, r.2)
def buildTopics : List Node → Nat → List Topic × Nat
  | [], ctr => ([], ctr)
  | n :: ns, ctr =>
    let r := buildTopic n ctr
    let r2 := buildTopics ns r.2
    (r.1 :: r2.1, r2.2)
end

def mapDefaultTitle : Line := "思维导图".toList

/-- Model of `treeToPackage`: the `content.json` value produced by
`buildXMindZipFromStructure` (an array with the single sheet), up to the
archive/serialisation boundary.  The root Topic is rebuilt from only
`structure.title || '思维导图'` and `structure.children || []` — a root
note is not passed along. -/
def treeToPackage (t : Node) : List SheetJ :=
  let rootTitle := if t.title = [] then mapDefaultTitle else t.title
  let r := buildTopic (Node.mk rootTitle [] t.children) 0
  [{ id := r.2, title := rootTitle, rootTopic := some r.1, topic := none }]

mutual
/-- Modelled from the spec: the Package Reader's Topic→Node 1:1 mapping
(§3, §4.4 step 6) — the source renders Markdown directly and has no
tree-producing reader.  Note and children are read through the source's
`getNote`/`getChildren` (the children match inlines `getChildren` for
structural recursion), and the title falls back to the placeholder as
every reader-side consumer does (`topic.title || '未命名主题'`). -/
def topicToNode : Topic → Node
  | ⟨i, title, np, nf, attached, detached⟩ =>
    Node.mk (displayTitle ⟨i, title, np, nf, attached, detached⟩)
      (getNote ⟨i, title, np, nf, attached, detached⟩)
      (match attached with
        | some l => topicToNodeList l
        | none =>
          match detached with
          | some l => topicToNodeList l
          | none => [])
def topicToNodeList : List Topic → List Node
  | [] => []
  | c :: cs => topicToNode c :: topicToNodeList cs
end

/-- Modelled from the spec: `packageToTree` returns the Tree of the
first sheet's root topic (the source's per-sheet loop reads
`sheet.rootTopic || sheet.topic`). -/
def packageToTree (content : List SheetJ) : Option Node :=
  match content with
  | [] => none
  | sh :: _ =>
    match sheetTopic sh with
    | some t => some (topicToNode t)
    | none => none

mutual
/-- Every node of the tree has a non-empty title. -/
def noEmptyTitles : Node → Bool
  | Node.mk title _ children => !title.isEmpty && noEmptyTitlesList children
def noEmptyTitlesList : List Node → Bool
  | [] => true
  | n :: ns => noEmptyTitles n && noEmptyTitlesList ns
end

/-! The legacy XML reader (`parseXMindXML` / `parseXMLTopic`), modelling
the source's pattern-matching regexes by deterministic scans. -/
/-- Case-insensitive comparison of a pattern against the start of the
input, as the `/i` flag compares the tag literals of the source's
regexes. -/
def ciStarts : List Char → List Char → Bool
  | [], _ => true
  | _ :: _, [] => false
  | p :: ps, c :: cs => (c.toLower == p.toLower) && ciStarts ps cs

/-- For the lazy body `([\s\S]*?)</tag>`: the length of the shortest
body after which the closing literal follows, paired with the total
length consumed through the closing literal. -/
def findCloseLen (close : List Char) : List Char → Option (Nat × Nat)
  | [] => if ciStarts close [] then some (0, close.length) else none
  | c :: cs =>
    if ciStarts close (c :: cs) then some (0, close.length)
    else (findCloseLen close cs).map (fun p => (p.1 + 1, p.2 + 1))

/-- Pattern `<tag[^>]*>([\s\S]*?)</tag>` anchored at the start of the input:
the full match and the remainder after it. -/
def elemAt (tag : List Char) (s : List Char) : Option (List Char × List Char) :=
  if ciStarts ('<' :: tag) s then
    let s1 := s.drop (1 + tag.length)
    let mid := s1.takeWhile (fun c => c ≠ '>')
    match s1.drop mid.length with
    | '>' :: s3 =>
      match findCloseLen ('<' :: '/' :: tag ++ ['>']) s3 with
      | some bt => some (s.take (1 + tag.length + mid.length + 1 + bt.2), s3.drop bt.2)
      | none => none
    | _ => none
  else none

/-- Pattern `<tag>([\s\S]*?)</tag>` (literal open tag) anchored at the start:
the captured body and the remainder after the closing tag. -/
def litElemAt (tag : List Char) (s : List Char) : Option (List Char × List Char) :=
  if ciStarts ('<' :: tag ++ ['>']) s then
    let s1 := s.drop (tag.length + 2)
    match findCloseLen ('<' :: '/' :: tag ++ ['>']) s1 with
    | some bt => some (s1.take bt.1, s1.drop bt.2)
    | none => none
  else none

/-- Pattern `<title>([^<]*)</title>` anchored at the start: the captured body.
No backtracking is possible: the greedy `[^<]*` run ends at the first
`'<'`, where the closing literal must follow. -/
def titleAt (s : List Char) : Option (List Char) :=
  if ciStarts "<title>".toList s then
    let s1 := s.drop 7
    let body := s1.takeWhile (fun c => c ≠ '<')
    if ciStarts "</title>".toList (s1.drop body.length) then some body else none
  else none

/-- A non-global `match`: try the sub-matcher at each successive start
position. -/
def scanFirstO {α : Type} (m : List Char → Option α) : List Char → Option α
  | [] => m []
  | c :: cs =>
    match m (c :: cs) with
    | some r => some r
    | none => scanFirstO m cs

/-- A global `match` (`/g`): all non-overlapping matches, resuming after
each one.  Every pattern used consumes at least one character, so fuel
equal to the input length is exact; it only makes recursion
structural. -/
def scanAllGo (m : List Char → Option (List Char × List Char)) :
    Nat → List Char → List (List Char)
  | 0, _ => []
  | fuel + 1, s =>
    match scanFirstO m s with
    | some r => r.1 :: scanAllGo m fuel r.2
    | none => []

def scanAll (m : List Char → Option (List Char × List Char)) (s : List Char) :
    List (List Char) :=
  scanAllGo m (s.length + 1) s

/-- Model of `str.replace(/<[^>]*>/g, '')`: delete every maximal `<…>` span; a
`'<'` with no later `'>'` is kept literally.  Each step strictly
shortens the input, so fuel equal to the length is exact. -/
def stripTagsGo : Nat → List Char → List Char
  | 0, _ => []
  | fuel + 1, s =>
    match s with
    | [] => []
    | c :: cs =>
      if c = '<' then
        match cs.dropWhile (fun d => d ≠ '>') with
        | '>' :: rest => stripTagsGo fuel rest
        | _ => c :: stripTagsGo fuel cs
      else c :: stripTagsGo fuel cs

def stripTags (s : List Char) : List Char := stripTagsGo s.length s

def xmlTopicTag : List Char := "topic".toList

def xmlTopicsTag : List Char := "topics".toList

def xmlSheetTag : List Char := "sheet".toList

/-- Model of `parseXMLTopic`.  Recursion is on substrings of the input produced
by the child-block matches, each strictly shorter than the input, so
fuel equal to the input length plus one is exact; the id field does not
exist in the XML format and is set to 0 (ids are never read). -/
def parseXMLTopicGo : Nat → List Char → Topic
  | 0, _ =>
    { id := 0, title := untitled, notesPlain := none, noteField := none,
      attached := none, detached := none }
  | fuel + 1, s =>
    let title :=
      match scanFirstO titleAt s with
      | some b => b
      | none => untitled
    let note :=
      match scanFirstO (litElemAt "notes".toList) s with
      | some nb =>
        match scanFirstO (litElemAt "plain".toList) nb.1 with
        | some pb => trimL (stripTags pb.1)
        | none => []
      | none => []
    let children :=
      (flatMapL (fun blk => scanAll (elemAt xmlTopicTag) blk)
        (scanAll (elemAt xmlTopicsTag) s)).map (parseXMLTopicGo fuel)
    { id := 0, title := title,
      notesPlain := if note = [] then none else some note,
      noteField := none,
      attached := if children.isEmpty then none else some children,
      detached := none }

def parseXMLTopic (s : List Char) : Topic := parseXMLTopicGo (s.length + 1) s

/-- Model of `parseXMindXML`: extract the `<sheet>` blocks, take the first
`<topic>` block of each as its root, skip sheets with none, and fail
when no sheet or no parsed sheet results. -/
def parseXMindXML (s : List Char) : Option (List SheetJ) :=
  match scanAll (elemAt xmlSheetTag) s with
  | [] => none
  | sm :: sms =>
    let sheets := (sm :: sms).filterMap (fun block =>
      (scanFirstO (elemAt xmlTopicTag) block).map (fun fm =>
        ({ id := 0, title := [], rootTopic := some (parseXMLTopic fm.1),
           topic := none } : SheetJ)))
    if sheets.isEmpty then none else some sheets

/-! The package reader boundary of `xmindZipToMarkdown`. -/
/-- The parse result of a JSON content entry, shaped as the reader
consumes it: `JSON.parse` yields either an array of sheets or a single
sheet object (`Array.isArray(data) ? data : [data]`). -/
inductive JsonData where
  | arr (sheets : List SheetJ)
  | single (sh : SheetJ)

/-- A zip entry as observed by the reader: its exact name, the outcome
of `JSON.parse` on its bytes (`none` models malformed — or falsy —
JSON, rejected by `safeJSONParse`/the truthiness check), and its bytes
as text for the XML fallback.  `JSZip` and `JSON` are external
libraries, modelled at this interface. -/
structure ZEntry where
  name : Line
  jsonParse : Option JsonData
  text : List Char

/-- Model of `zip.file(name)`: exact (case-sensitive) name lookup. -/
def zfile (z : List ZEntry) (nm : Line) : Option ZEntry :=
  z.find? (fun e => e.name == nm)

/-- Model of `a || b` on nullable lookups. -/
def orElseO {α : Type} : Option α → Option α → Option α
  | some a, _ => some a
  | none, b => b

inductive ConvError where
  | jsonParseFailed
  | xmlParseFailed
  | unsupportedFormat
deriving Repr, DecidableEq

def sheetsOfJson : JsonData → List SheetJ
  | JsonData.arr l => l
  | JsonData.single sh => [sh]

/-- The JSON branch: `safeJSONParse` failure (or falsy data) throws
`content.json 解析失败`. -/
def readJsonEntry (f : ZEntry) : Except ConvError (List SheetJ) :=
  match f.jsonParse with
  | some d => Except.ok (sheetsOfJson d)
  | none => Except.error ConvError.jsonParseFailed

/-- The XML branch: a `null` from `parseXMindXML` throws
`content.xml 解析失败`. -/
def readXmlEntry (f : ZEntry) : Except ConvError (List SheetJ) :=
  match parseXMindXML f.text with
  | some sheets => Except.ok sheets
  | none => Except.error ConvError.xmlParseFailed

/-- The entry-selection logic of `xmindZipToMarkdown`:
`z.file('content.json') || z.file('Content.json')`, else
`z.file('content.xml') || z.file('Content.xml')`, else the
`不支持的 XMind 格式` error. -/
def readPackageSheets (z : List ZEntry) : Except ConvError (List SheetJ) :=
  match orElseO (zfile z "content.json".toList) (zfile z "Content.json".toList) with
  | some f => readJsonEntry f
  | none =>
    match orElseO (zfile z "content.xml".toList) (zfile z "Content.xml".toList) with
    | some f => readXmlEntry f
    | none => Except.error ConvError.unsupportedFormat

/-- Model of `xmindZipToMarkdown` from the loaded archive to the Markdown text. -/
def xmindZipToMarkdown (z : List ZEntry) (format : MdFormat) :
    Except ConvError (List Char) :=
  (readPackageSheets z).map (fun sheets => sheetsToMarkdown sheets format)

theorem headerOf_ne_nil {l : Line} {r : Nat × Line} (h : headerOf l = some r) : l ≠ [] := by
  intro hl; subst hl; simp [headerOf] at h

theorem getLast?_map_title_cons {f g : Frame} {rest : List Frame}
    (h : f.title = g.title) :
    ((f :: rest).getLast?.map Frame.title) = ((g :: rest).getLast?.map Frame.title) := by
  cases rest with
  | nil => simp [h]
  | cons a as => simp [List.getLast?_cons_cons]

theorem popToGo_rootTitle (d : Nat) : ∀ (fuel : Nat) (s : List Frame),
    stackRootTitle (popToGo d fuel s) = stackRootTitle s := by
  intro fuel
  induction fuel with
  | zero => intro s; rfl
  | succ n ih =>
    intro s
    match s with
    | [] => rfl
    | [f] => rfl
    | f :: g :: rest =>
      rw [popToGo]
      split
      · rw [ih]
        unfold stackRootTitle
        rw [List.getLast?_cons_cons]
        exact getLast?_map_title_cons rfl
      · rfl

theorem popTo_rootTitle (d : Nat) (s : List Frame) :
    stackRootTitle (popTo d s) = stackRootTitle s := popToGo_rootTitle d s.length s

theorem popToGo_ne_nil (d : Nat) : ∀ (fuel : Nat) (s : List Frame),
    s ≠ [] → popToGo d fuel s ≠ [] := by
  intro fuel
  induction fuel with
  | zero => intro s h; exact h
  | succ n ih =>
    intro s h
    match s with
    | [f] => rw [popToGo]; simp
    | f :: g :: rest =>
      rw [popToGo]
      split
      · exact ih _ (by simp)
      · simp

theorem popTo_ne_nil (d : Nat) (s : List Frame) (h : s ≠ []) : popTo d s ≠ [] :=
  popToGo_ne_nil d s.length s h

theorem popToGo_length (d : Nat) : ∀ (fuel : Nat) (s : List Frame),
    s ≠ [] → s.length ≤ fuel + 1 → (popToGo d fuel s).length = min s.length (max d 1) := by
  intro fuel
  induction fuel with
  | zero =>
    intro s h hf
    match s, h, hf with
    | [f], _, _ => simp [popToGo]
  | succ n ih =>
    intro s h hf
    match s with
    | [f] => rw [popToGo]; simp
    | f :: g :: rest =>
      rw [popToGo]
      split
      · rename_i hlt
        rw [ih _ (by simp) (by simp at hf ⊢; omega)]
        simp at hlt ⊢
        omega
      · rename_i hlt
        simp at hlt ⊢
        omega

theorem popTo_length (d : Nat) (s : List Frame) (h : s ≠ []) :
    (popTo d s).length = min s.length (max d 1) :=
  popToGo_length d s.length s h (by omega)

theorem popTo_one_singleton (s : List Frame) (h : s ≠ []) :
    ∃ f, popTo 1 s = [f] := by
  have hl := popTo_length 1 s h
  have hn := popTo_ne_nil 1 s h
  match hp : popTo 1 s with
  | [] => exact absurd hp hn
  | [f] => exact ⟨f, rfl⟩
  | f :: g :: rest =>
    rw [hp] at hl
    have : s.length ≠ 0 := by
      intro h0
      exact h (List.length_eq_zero.mp h0)
    simp at hl
    omega

theorem setRootTitle_ne_nil' (t : Line) (s : List Frame) (h : s ≠ []) :
    setRootTitle t s ≠ [] := by
  match s, h with
  | [f], _ => simp [setRootTitle]
  | f :: g :: rest, _ => simp [setRootTitle]

theorem setRootTitle_rootTitle (t : Line) :
    ∀ (s : List Frame), s ≠ [] → stackRootTitle (setRootTitle t s) = some t
  | [f], _ => by simp [setRootTitle, stackRootTitle, Frame.title]
  | f :: g :: rs, _ => by
    rw [setRootTitle]
    have ih := setRootTitle_rootTitle t (g :: rs) (by simp)
    have hne := setRootTitle_ne_nil' t (g :: rs) (by simp)
    unfold stackRootTitle at ih ⊢
    obtain ⟨x, xs, hL⟩ : ∃ x xs, setRootTitle t (g :: rs) = x :: xs := by
      cases hM : setRootTitle t (g :: rs) with
      | nil => exact absurd hM hne
      | cons x xs => exact ⟨x, xs, rfl⟩
    rw [hL, List.getLast?_cons_cons, ← hL]
    exact ih

theorem plainText_rootTitle (l : Line) (s : List Frame) :
    stackRootTitle (plainText l s) = stackRootTitle s := by
  match s with
  | [] => rfl
  | f :: rest =>
    rw [plainText]
    match f.children with
    | [] => exact getLast?_map_title_cons rfl
    | _ :: _ => exact getLast?_map_title_cons rfl

theorem plainText_ne_nil (l : Line) (s : List Frame) (h : s ≠ []) :
    plainText l s ≠ [] := by
  match s, h with
  | f :: rest, _ =>
    rw [plainText]
    match f.children with
    | [] => simp
    | _ :: _ => simp

theorem pushFrame_rootTitle (t : Line) (s : List Frame) (h : s ≠ []) :
    stackRootTitle (pushFrame t s) = stackRootTitle s := by
  match s, h with
  | f :: rest, _ =>
    unfold pushFrame stackRootTitle
    rw [List.getLast?_cons_cons]

theorem parseStep_stack_ne (s : PState) (raw : Line) (h : s.stack ≠ []) :
    (parseStep s raw).stack ≠ [] := by
  rw [parseStep]
  split
  · exact h
  · split
    · split
      · exact setRootTitle_ne_nil' _ _ (popTo_ne_nil _ _ h)
      · simp [pushFrame]
    · split
      · simp [pushFrame]
      · split
        · exact plainText_ne_nil _ _ h
        · exact h

theorem parseStep_found_mono (s : PState) (raw : Line) (h : s.firstH1Found = true) :
    (parseStep s raw).firstH1Found = true := by
  rw [parseStep]
  split
  · exact h
  · split
    · split
      · rfl
      · exact h
    · split
      · exact h
      · split
        · exact h
        · exact h

theorem parseStep_rootTitle_found (s : PState) (raw : Line) (h : s.stack ≠ [])
    (hf : s.firstH1Found = true) :
    stackRootTitle (parseStep s raw).stack = stackRootTitle s.stack := by
  rw [parseStep]
  split
  · rfl
  · split
    · rename_i level title heq
      split
      · rename_i hcond
        rw [hf] at hcond
        exact absurd hcond.2 (by simp)
      · simp only
        rw [pushFrame_rootTitle _ _ (popTo_ne_nil _ _ h), popTo_rootTitle]
    · split
      · simp only
        rw [pushFrame_rootTitle _ _ (popTo_ne_nil _ _ h), popTo_rootTitle]
      · split
        · exact plainText_rootTitle _ _
        · rfl

theorem parseStep_notH1 (s : PState) (raw : Line) (h : s.stack ≠ [])
    (hf : s.firstH1Found = false) (hno : h1Title? raw = none) :
    (parseStep s raw).firstH1Found = false ∧
      stackRootTitle (parseStep s raw).stack = stackRootTitle s.stack := by
  rw [parseStep]
  split
  · exact ⟨hf, rfl⟩
  · split
    · rename_i level title heq
      have hlv : level ≠ 1 := by
        intro h1
        subst h1
        rw [h1Title?, heq] at hno
        simp at hno
      rw [if_neg (by simp [hlv])]
      refine ⟨hf, ?_⟩
      simp only
      rw [pushFrame_rootTitle _ _ (popTo_ne_nil _ _ h), popTo_rootTitle]
    · split
      · refine ⟨hf, ?_⟩
        simp only
        rw [pushFrame_rootTitle _ _ (popTo_ne_nil _ _ h), popTo_rootTitle]
      · split
        · exact ⟨hf, plainText_rootTitle _ _⟩
        · exact ⟨hf, rfl⟩

theorem parseStep_H1 (s : PState) (raw : Line) (t : Line) (_h : s.stack ≠ [])
    (hf : s.firstH1Found = false) (ht : h1Title? raw = some t) :
    parseStep s raw = ⟨setRootTitle t (popTo 1 s.stack), true⟩ := by
  rw [h1Title?] at ht
  split at ht
  · rename_i heq
    cases ht
    rw [parseStep]
    rw [if_neg ?hblank]
    case hblank =>
      intro hnil
      rw [hnil] at heq
      simp [headerOf] at heq
    rw [heq]
    simp [hf]
  · exact absurd ht (by simp)

theorem fold_rootTitle_found (ls : List Line) (s : PState) (h : s.stack ≠ [])
    (hf : s.firstH1Found = true) :
    stackRootTitle (ls.foldl parseStep s).stack = stackRootTitle s.stack ∧
      (ls.foldl parseStep s).stack ≠ [] ∧ (ls.foldl parseStep s).firstH1Found = true := by
  induction ls generalizing s with
  | nil => exact ⟨rfl, h, hf⟩
  | cons l ls ih =>
    rw [List.foldl_cons]
    have h1 := parseStep_stack_ne s l h
    have h2 := parseStep_found_mono s l hf
    have h3 := parseStep_rootTitle_found s l h hf
    obtain ⟨a, b, c⟩ := ih (parseStep s l) h1 h2
    exact ⟨a.trans h3, b, c⟩

theorem fold_rootTitle_notfound (ls : List Line) (s : PState) (h : s.stack ≠ [])
    (hf : s.firstH1Found = false) :
    stackRootTitle (ls.foldl parseStep s).stack =
      match (ls.filterMap h1Title?).head? with
      | some t => some t
      | none => stackRootTitle s.stack := by
  induction ls generalizing s with
  | nil => rfl
  | cons l ls ih =>
    rw [List.foldl_cons, List.filterMap_cons]
    cases ht : h1Title? l with
    | none =>
      obtain ⟨ha, hb⟩ := parseStep_notH1 s l h hf ht
      rw [ih (parseStep s l) (parseStep_stack_ne s l h) ha]
      cases (ls.filterMap h1Title?).head? <;> simp [hb]
    | some t =>
      rw [parseStep_H1 s l t h hf ht]
      have hne : setRootTitle t (popTo 1 s.stack) ≠ [] :=
        setRootTitle_ne_nil' _ _ (popTo_ne_nil _ _ h)
      obtain ⟨a, _, _⟩ := fold_rootTitle_found ls ⟨setRootTitle t (popTo 1 s.stack), true⟩ hne rfl
      rw [a]
      simp only
      rw [setRootTitle_rootTitle _ _ (popTo_ne_nil _ _ h)]
      simp

theorem finalizeFrames_title (s : List Frame) (h : s ≠ []) :
    some (finalizeFrames s).title = stackRootTitle s := by
  obtain ⟨f, hf⟩ := popTo_one_singleton s h
  rw [finalizeFrames, hf]
  have := popTo_rootTitle 1 s
  rw [hf] at this
  rw [← this]
  simp [stackRootTitle, Frame.close, Node.title]

/-- C1: the first level-1 heading becomes the root title directly (the
step produces exactly a stack reset to the root with the new title — no
node is created); every subsequent heading of level `L` is inserted by
popping the stack to depth `max 1 (if L = 1 then 1 else L-1)` and
pushing the new node there. -/
theorem C1_first_h1_and_heading_depths :
    (∀ text t, ((splitLines text).filterMap h1Title?).head? = some t →
        (markdownToTree text).title = t)
    ∧ (∀ s raw t, s.stack ≠ [] → s.firstH1Found = false → h1Title? raw = some t →
        parseStep s raw = ⟨setRootTitle t (popTo 1 s.stack), true⟩ ∧
          (popTo 1 s.stack).length = 1)
    ∧ (∀ s raw level title, headerOf (trimL (preprocessLine raw)) = some (level, title) →
        ¬(level = 1 ∧ s.firstH1Found = false) →
        parseStep s raw =
          { s with
            stack := pushFrame title
              (popTo (max 1 (if level = 1 then 1 else level - 1)) s.stack) }) := by
  refine ⟨?_, ?_, ?_⟩
  · intro text t ht
    rw [markdownToTree]
    have hinit : initState.stack ≠ [] := by simp [initState]
    have h := fold_rootTitle_notfound (splitLines text) initState hinit rfl
    rw [ht] at h
    have hne : ((splitLines text).foldl parseStep initState).stack ≠ [] := by
      clear h ht
      induction splitLines text using List.reverseRecOn with
      | nil => exact hinit
      | append_singleton ls l ih =>
        rw [List.foldl_append, List.foldl_cons, List.foldl_nil]
        exact parseStep_stack_ne _ _ ih
    have := finalizeFrames_title _ hne
    rw [h] at this
    exact Option.some_injective _ this
  · intro s raw t h hf ht
    refine ⟨parseStep_H1 s raw t h hf ht, ?_⟩
    obtain ⟨f, hf1⟩ := popTo_one_singleton s.stack h
    rw [hf1]
    rfl
  · intro s raw level title heq hcond
    rw [parseStep]
    rw [if_neg ?hblank]
    case hblank =>
      intro hnil
      rw [hnil] at heq
      simp [headerOf] at heq
    rw [heq]
    simp only
    rw [if_neg hcond]
    have : max 1 (if level = 1 then 1 else level - 1) =
        (if (if level = 1 then 1 else level - 1) < 1 then 1
          else if level = 1 then 1 else level - 1) := by
      rcases eq_or_ne level 1 with h1 | h1 <;>
        simp only [h1, if_pos, if_neg, Nat.max_def] <;> split_ifs <;> omega
    rw [this]

/-- Witness for C1 at concrete inputs. -/
theorem C1_first_h1_and_heading_depths_witness :
    (markdownToTree "intro\n# Hello\n## W\n# Bye".toList).title = "Hello".toList
    ∧ parseStep initState "# T".toList =
        ⟨setRootTitle "T".toList (popTo 1 initState.stack), true⟩
    ∧ parseStep ⟨initState.stack, true⟩ "### D".toList =
        { stack := pushFrame "D".toList (popTo (max 1 2) initState.stack),
          firstH1Found := true } := by
  refine ⟨C1_first_h1_and_heading_depths.1 _ _ (by decide), ?_, ?_⟩
  · exact (C1_first_h1_and_heading_depths.2.1 initState "# T".toList "T".toList
      (by simp [initState]) rfl (by decide)).1
  · exact C1_first_h1_and_heading_depths.2.2 ⟨initState.stack, true⟩ "### D".toList 3
      "D".toList (by decide) (by simp)

theorem bulletOf_head_not_ws {l : Line} {r : Nat × Line} (h : bulletOf l = some r) :
    ∃ c rest2, l.dropWhile isWs = c :: rest2 ∧ isWs c = false := by
  rw [bulletOf] at h
  split at h
  · rename_i c rest2 hrest
    split at h
    · rename_i hc
      refine ⟨c, rest2, hrest, ?_⟩
      rcases (by simpa using hc : (c = '-' ∨ c = '*') ∨ c = '+') with (h1 | h1) | h1 <;>
        subst h1 <;> rfl
    · simp at h
  · simp at h

theorem bulletOf_nonblank {l : Line} {r : Nat × Line} (h : bulletOf l = some r) :
    trimL l ≠ [] := by
  obtain ⟨c, rest2, hrest, hc⟩ := bulletOf_head_not_ws h
  rw [trimL, dropWs, hrest]
  intro htr
  rw [trimEndL] at htr
  have h2 : dropWs (c :: rest2).reverse = [] := by
    have := congrArg List.reverse htr
    simpa using this
  rw [dropWs, List.dropWhile_eq_nil_iff] at h2
  have := h2 c (by simp)
  rw [hc] at this
  exact absurd this (by simp)

/-- C5: a line on which heading matching fails and that matches the
bullet pattern with `indent` leading whitespace characters is inserted
at depth `indent / 2 + 1` with the same pop/push discipline and no
further adjustment; whenever heading matching succeeds the heading
branch is taken, so bullet matching is never consulted. -/
theorem C5_bullet_depth_and_priority :
    (∀ s raw indent title,
        headerOf (trimL (preprocessLine raw)) = none →
        bulletOf (preprocessLine raw) = some (indent, title) →
        parseStep s raw =
          { s with stack := pushFrame title (popTo (indent / 2 + 1) s.stack) })
    ∧ (∀ s raw level title,
        headerOf (trimL (preprocessLine raw)) = some (level, title) →
        parseStep s raw =
          if level = 1 ∧ s.firstH1Found = false then
            ⟨setRootTitle title (popTo 1 s.stack), true⟩
          else
            { s with
              stack := pushFrame title
                (popTo (if (if level = 1 then 1 else level - 1) < 1 then 1
                        else if level = 1 then 1 else level - 1) s.stack) }) := by
  constructor
  · intro s raw indent title hh hb
    rw [parseStep]
    rw [if_neg (by simpa using bulletOf_nonblank hb)]
    rw [hh, hb]
  · intro s raw level title hh
    rw [parseStep]
    rw [if_neg ?hblank]
    case hblank =>
      intro hnil
      rw [hnil] at hh
      simp [headerOf] at hh
    rw [hh]

/-- Witness for C5 at concrete inputs. -/
theorem C5_bullet_depth_and_priority_witness :
    parseStep initState "    - item".toList =
      { initState with
        stack := pushFrame "item".toList (popTo 3 initState.stack) }
    ∧ parseStep initState "## hd".toList =
      { initState with
        stack := pushFrame "hd".toList (popTo 1 initState.stack) } := by
  constructor
  · exact C5_bullet_depth_and_priority.1 initState "    - item".toList 4 "item".toList
      (by decide) (by decide)
  · have := C5_bullet_depth_and_priority.2 initState "## hd".toList 2 "hd".toList (by decide)
    rw [this]
    simp

/-- C7 counterexample: on input consisting only of the plain-text line
"hello" the parser returns the default root with no note and no
children — the line is dropped, not attached to the root as the claim
predicts. -/
theorem C7_plain_text_counterexample :
    markdownToTree "hello".toList = Node.mk defaultRootTitle [] [] ∧
      "hello".toList ≠ ([] : Line) := by
  exact ⟨rfl, by decide⟩

/-- C7 (amended): a non-blank line matching neither pattern is treated
as plain text only when the stack top is not the root (stack depth
greater than one): with no children yet it is appended to the top
node's note, otherwise it becomes a new leaf child; when the stack
holds only the root the line is discarded, so a document with no
recognisable structure yields the default root with no notes or
children. -/
theorem C7_plain_text_amended :
    (∀ s raw, s.stack.length ≤ 1 →
        trimL (preprocessLine raw) ≠ [] →
        headerOf (trimL (preprocessLine raw)) = none →
        bulletOf (preprocessLine raw) = none →
        parseStep s raw = s)
    ∧ (∀ s raw, 1 < s.stack.length →
        trimL (preprocessLine raw) ≠ [] →
        headerOf (trimL (preprocessLine raw)) = none →
        bulletOf (preprocessLine raw) = none →
        parseStep s raw = { s with stack := plainText (preprocessLine raw) s.stack })
    ∧ (∀ line f rest, f.children = [] →
        plainText line (f :: rest) =
          { f with note := if f.note = [] then line else f.note ++ '\n' :: line } :: rest)
    ∧ (∀ line f rest, f.children ≠ [] →
        plainText line (f :: rest) =
          { f with children := f.children ++ [Node.mk line [] []] } :: rest) := by
  refine ⟨?_, ?_, ?_, ?_⟩
  · intro s raw hlen hnb hh hb
    rw [parseStep]
    rw [if_neg (by simpa using hnb), hh, hb]
    simp only
    rw [if_neg (by omega)]
  · intro s raw hlen hnb hh hb
    rw [parseStep]
    rw [if_neg (by simpa using hnb), hh, hb]
    simp only
    rw [if_pos hlen]
  · intro line f rest hch
    rw [plainText, hch]
  · intro line f rest hch
    rw [plainText]
    match hc : f.children, hch with
    | x :: xs, _ => simp

/-- Witness for the amended C7 at concrete inputs. -/
theorem C7_plain_text_amended_witness :
    parseStep initState "hello".toList = initState
    ∧ parseStep ⟨pushFrame "t".toList initState.stack, true⟩ "hello".toList =
        { stack := plainText "hello".toList (pushFrame "t".toList initState.stack),
          firstH1Found := true }
    ∧ plainText "x".toList [⟨"t".toList, [], []⟩] =
        [⟨"t".toList, "x".toList, []⟩]
    ∧ plainText "x".toList [⟨"t".toList, [], [Node.mk "c".toList [] []]⟩] =
        [⟨"t".toList, [], [Node.mk "c".toList [] [], Node.mk "x".toList [] []]⟩] := by
  refine ⟨?_, ?_, ?_, ?_⟩
  · exact C7_plain_text_amended.1 initState "hello".toList (by decide) (by decide)
      (by decide) (by decide)
  · exact C7_plain_text_amended.2.1 _ "hello".toList (by simp [pushFrame, initState])
      (by decide) (by decide) (by decide)
  · have := C7_plain_text_amended.2.2.1 "x".toList ⟨"t".toList, [], []⟩ [] rfl
    rw [this]
    simp
  · have := C7_plain_text_amended.2.2.2 "x".toList
      ⟨"t".toList, [], [Node.mk "c".toList [] []]⟩ [] (by simp)
    rw [this]
    simp

theorem mem_buildHeaders_ge :
    ∀ (ls : List Line) (i : Nat) (h : Nat × Nat × Line), h ∈ buildHeaders i ls → i ≤ h.1 := by
  intro ls
  induction ls with
  | nil => intro i h hm; simp [buildHeaders] at hm
  | cons l ls ih =>
    intro i h hm
    rw [buildHeaders] at hm
    split at hm
    · rcases List.mem_cons.mp hm with h1 | h1
      · subst h1; exact le_refl i
      · exact Nat.le_of_succ_le (ih (i + 1) h h1)
    · exact Nat.le_of_succ_le (ih (i + 1) h hm)

theorem lookupHdr_found (i : Nat) :
    ∀ (pre : List (Nat × Nat × Line)) (h : Nat × Nat × Line) (rest : List (Nat × Nat × Line)),
      (∀ x ∈ pre, x.1 ≠ i) → h.1 = i → lookupHdr i (pre ++ h :: rest) = some (pre, h) := by
  intro pre
  induction pre with
  | nil =>
    intro h rest _ hh
    rw [List.nil_append, lookupHdr, if_pos hh]
  | cons a as ih =>
    intro h rest hx hh
    rw [List.cons_append, lookupHdr, if_neg (hx a (by simp))]
    rw [ih h rest (fun x hm => hx x (by simp [hm])) hh]
    rfl

theorem lookupHdr_none (i : Nat) :
    ∀ (L : List (Nat × Nat × Line)), (∀ x ∈ L, x.1 ≠ i) → lookupHdr i L = none := by
  intro L
  induction L with
  | nil => intro _; rfl
  | cons a as ih =>
    intro hx
    rw [lookupHdr, if_neg (hx a (by simp)), ih (fun x hm => hx x (by simp [hm]))]
    rfl

theorem findParentH2_snoc (pre : List (Nat × Nat × Line)) (h : Nat × Nat × Line) :
    findParentH2 (pre ++ [h]) = if h.2.1 = 2 then h.2.2 else findParentH2 pre := by
  rw [findParentH2, List.reverse_append]
  simp only [List.reverse_cons, List.reverse_nil, List.nil_append, List.cons_append,
    List.singleton_append]
  by_cases h2 : h.2.1 = 2
  · rw [List.find?_cons_of_pos _ (by simp [h2]), if_pos h2]
  · rw [List.find?_cons_of_neg _ (by simp [h2]), if_neg h2]
    rfl

/-- Refinement of the reconstruction loop to the running-label
description: `pre` collects the headers of the lines already processed. -/
theorem convert_go :
    ∀ (ls : List Line) (i : Nat) (pre : List (Nat × Nat × Line)),
      (∀ h ∈ pre, h.1 < i) →
      flatMapL (fun p => convertLine (pre ++ buildHeaders i ls) p.1 p.2) (enumFrom i ls) =
        restructureSpec (findParentH2 pre) ls := by
  intro ls
  induction ls with
  | nil => intro i pre _; rfl
  | cons l ls ih =>
    intro i pre hpre
    rw [enumFrom, buildHeaders, restructureSpec]
    cases hh : headerOf (trimL l) with
    | some r =>
      obtain ⟨lv, t⟩ := r
      simp only [hh]
      rw [flatMapL]
      have hiq : lookupHdr i (pre ++ (i, lv, t) :: buildHeaders (i + 1) ls) =
          some (pre, (i, lv, t)) :=
        lookupHdr_found i pre (i, lv, t) _ (fun x hm => Nat.ne_of_lt (hpre x hm)) rfl
      have htail : flatMapL
            (fun p => convertLine (pre ++ (i, lv, t) :: buildHeaders (i + 1) ls) p.1 p.2)
            (enumFrom (i + 1) ls) =
          restructureSpec (findParentH2 (pre ++ [(i, lv, t)])) ls := by
        have := ih (i + 1) (pre ++ [(i, lv, t)]) (by
          intro h hm
          rcases List.mem_append.mp hm with h1 | h1
          · exact Nat.lt_succ_of_lt (hpre h h1)
          · simp at h1; subst h1; exact Nat.lt_succ_self i)
        rw [List.append_assoc] at this
        simpa using this
      rw [convertLine, hiq]
      simp only
      by_cases h2 : lv = 2
      · rw [if_pos h2, if_pos h2, List.nil_append, htail, findParentH2_snoc]
        simp [h2]
      · by_cases h3 : lv = 3
        · rw [if_neg h2, if_pos h3, if_neg h2, if_pos h3, htail, findParentH2_snoc]
          simp only [h2, if_neg]
          rfl
        · rw [if_neg h2, if_neg h3, if_neg h2, if_neg h3, htail, findParentH2_snoc]
          simp only [h2, if_neg]
          rfl
    | none =>
      simp only [hh]
      rw [flatMapL, convertLine]
      have hnone : lookupHdr i (pre ++ buildHeaders (i + 1) ls) = none := by
        apply lookupHdr_none
        intro x hm
        rcases List.mem_append.mp hm with h1 | h1
        · exact Nat.ne_of_lt (hpre x h1)
        · have := mem_buildHeaders_ge ls (i + 1) x h1
          omega
      rw [hnone]
      rw [ih (i + 1) pre (fun h hm => Nat.lt_succ_of_lt (hpre h hm))]
      rfl

/-- Shared refinement equation for `convertMdToMd`. -/
theorem convertMdToMd_eq_spec (content : List Char) :
    convertMdToMd content = joinLines (restructureSpec unclassified (splitLines content)) := by
  rw [convertMdToMd, convertLines]
  have := convert_go (splitLines content) 0 [] (by intro h hm; simp at hm)
  rw [List.nil_append] at this
  rw [this]
  rfl

/-- C3: `convertMdToMd` reconstructs the document line by line: every
original level-2 heading line is dropped, immediately before each
level-3 heading line a level-2 heading line carrying the section label
is synthesized (the title of the nearest preceding level-2 heading in
the heading list, or the default label when none exists), and all other
lines pass through unchanged — the running-label description
`restructureSpec`. -/
theorem C3_restructure_lines :
    ∀ content, convertMdToMd content =
      joinLines (restructureSpec unclassified (splitLines content)) :=
  convertMdToMd_eq_spec

/-! Trimming facts used to show the synthesized level-2 lines parse back
to level-2 headings with the same title. -/
theorem dropWhile_dropWhile {α : Type} (p : α → Bool) (l : List α) :
    (l.dropWhile p).dropWhile p = l.dropWhile p := by
  induction l with
  | nil => rfl
  | cons a as ih =>
    by_cases h : p a
    · rw [List.dropWhile_cons_of_pos h]; exact ih
    · rw [List.dropWhile_cons_of_neg h, List.dropWhile_cons_of_neg h]

theorem dropWhile_head_false {α : Type} (p : α → Bool) (l : List α) :
    ∀ c cs, l.dropWhile p = c :: cs → p c = false := by
  induction l with
  | nil => intro c cs h; simp at h
  | cons a as ih =>
    intro c cs h
    by_cases hp : p a
    · rw [List.dropWhile_cons_of_pos hp] at h; exact ih c cs h
    · rw [List.dropWhile_cons_of_neg hp] at h
      cases h
      simpa using hp

theorem dropWhile_eq_self_of_head {α : Type} (p : α → Bool) (t : List α) (c : α)
    (hh : t.head? = some c) (hp : p c = false) : t.dropWhile p = t := by
  match t, hh with
  | a :: as, hh =>
    have : a = c := by simpa using hh
    subst this
    exact List.dropWhile_cons_of_neg (by simp [hp])

theorem getLast?_of_suffix {α : Type} {s l : List α} (h : s <:+ l) (hne : s ≠ []) :
    s.getLast? = l.getLast? := by
  obtain ⟨t, rfl⟩ := h
  exact (List.getLast?_append_of_ne_nil t hne).symm

theorem trimmedP_head_not_ws {t : Line} {c : Char} {cs : Line}
    (ht : TrimmedP t) (h : t = c :: cs) : isWs c = false := by
  subst h
  by_cases hw : isWs c
  · have := ht.1
    rw [dropWs, List.dropWhile_cons_of_pos (by simpa using hw)] at this
    have hlen := congrArg List.length this
    have := (List.dropWhile_sublist (l := cs) isWs).length_le
    simp at hlen
    omega
  · simpa using hw

theorem trimmedP_last_not_ws {t : Line} {c : Char} {cs : Line}
    (ht : TrimmedP t) (h : t.reverse = c :: cs) : isWs c = false := by
  by_cases hw : isWs c
  · have := ht.2
    rw [dropWs, h, List.dropWhile_cons_of_pos (by simpa using hw)] at this
    have hlen := congrArg List.length this
    have := (List.dropWhile_sublist (l := cs) isWs).length_le
    simp at hlen
    omega
  · simpa using hw

theorem trimmed_trimL (x : Line) : TrimmedP (trimL x) := by
  have hform : trimL x = (dropWs ((dropWs x).reverse)).reverse := by
    rw [trimL, trimEndL]
  constructor
  · rw [hform]
    cases hv : dropWs ((dropWs x).reverse) with
    | nil => simp [dropWs]
    | cons c cs =>
      have hvne : dropWs ((dropWs x).reverse) ≠ [] := by rw [hv]; simp
      have hsuf : dropWs ((dropWs x).reverse) <:+ (dropWs x).reverse :=
        List.dropWhile_suffix isWs
      have hlast : (dropWs ((dropWs x).reverse)).getLast? = ((dropWs x).reverse).getLast? :=
        getLast?_of_suffix hsuf hvne
      rw [List.getLast?_reverse] at hlast
      cases hu : dropWs x with
      | nil =>
        rw [hu] at hv
        simp [dropWs] at hv
      | cons u us =>
        have hcu : (c :: cs).getLast? = some u := by
          rw [← hv, hlast, hu]; rfl
        have huws : isWs u = false := dropWhile_head_false isWs x u us hu
        apply dropWhile_eq_self_of_head isWs _ u
        · rw [List.head?_reverse, hcu]
        · exact huws
  · rw [hform, List.reverse_reverse]
    exact dropWhile_dropWhile isWs _

theorem trimL_of_trimmed {t : Line} (ht : TrimmedP t) : trimL t = t := by
  rw [trimL, trimEndL, dropWs, ht.1, ← dropWs, ht.2, List.reverse_reverse]

theorem trimL_ne_nil_of_head {c : Char} {cs : Line} (hc : isWs c = false) :
    trimL (c :: cs) ≠ [] := by
  rw [trimL, dropWs, List.dropWhile_cons_of_neg (by simp [hc]), trimEndL]
  intro hcon
  have h2 : dropWs ((c :: cs).reverse) = [] := by
    have := congrArg List.reverse hcon
    simpa using this
  rw [dropWs, List.dropWhile_eq_nil_iff] at h2
  have h3 := h2 c (by simp)
  rw [hc] at h3
  simp at h3

theorem headerOf_title_facts {l : Line} {lv : Nat} {t : Line}
    (h : headerOf l = some (lv, t)) : TrimmedP t ∧ t ≠ [] := by
  rw [headerOf] at h
  split at h
  · split at h
    · split at h
      · split at h
        · simp at h
        · rename_i hbody
          have hth : t = trimL ((l.dropWhile fun c => c = '#').dropWhile isWs) := by
            simp at h
            exact h.2.symm
          cases hbody2 : (l.dropWhile fun c => c = '#').dropWhile isWs with
          | nil => exact absurd hbody2 hbody
          | cons c1 cs1 =>
            have hc1 : isWs c1 = false := dropWhile_head_false isWs _ c1 cs1 hbody2
            rw [hth, hbody2]
            exact ⟨trimmed_trimL _, trimL_ne_nil_of_head hc1⟩
      · simp at h
    · simp at h
  · simp at h

theorem trimmedP_hdr2 (t : Line) (ht : TrimmedP t) (hne : t ≠ []) :
    TrimmedP (hdr2 t) := by
  constructor
  · rw [hdr2, dropWs, List.dropWhile_cons_of_neg (by decide)]
  · cases htr : t.reverse with
    | nil => exact absurd (by simpa using htr) hne
    | cons c cs =>
      have hc : isWs c = false := trimmedP_last_not_ws ht htr
      rw [hdr2, dropWs]
      simp only [List.reverse_cons, List.append_assoc, htr]
      rw [List.cons_append]
      rw [List.dropWhile_cons_of_neg (by simp [hc])]

theorem headerOf_hdr2 (t : Line) (ht : TrimmedP t) (hne : t ≠ []) :
    headerOf (hdr2 t) = some (2, t) := by
  have htake : (hdr2 t).takeWhile (fun c => c = '#') = ['#', '#'] := by
    rw [hdr2, List.takeWhile_cons_of_pos (by decide), List.takeWhile_cons_of_pos (by decide),
      List.takeWhile_cons_of_neg (by decide)]
  have hdrop : (hdr2 t).dropWhile (fun c => c = '#') = ' ' :: t := by
    rw [hdr2, List.dropWhile_cons_of_pos (by decide), List.dropWhile_cons_of_pos (by decide),
      List.dropWhile_cons_of_neg (by decide)]
  rw [headerOf]
  simp only [htake, hdrop]
  rw [if_pos (by simp)]
  rw [if_pos (by decide)]
  have hbody : (' ' :: t).dropWhile isWs = t := by
    rw [List.dropWhile_cons_of_pos (by decide), ← dropWs, ht.1]
  rw [hbody]
  rw [if_neg hne]
  rw [trimL_of_trimmed ht]
  rfl

theorem headerOf_trim_hdr2 (t : Line) (ht : TrimmedP t) (hne : t ≠ []) :
    headerOf (trimL (hdr2 t)) = some (2, t) := by
  rw [trimL_of_trimmed (trimmedP_hdr2 t ht hne)]
  exact headerOf_hdr2 t ht hne

theorem restructureSpec_idem :
    ∀ (ls : List Line) (lab lab' : Line), TrimmedP lab → lab ≠ [] →
      restructureSpec lab' (restructureSpec lab ls) = restructureSpec lab ls := by
  intro ls
  induction ls with
  | nil => intro lab lab' _ _; rfl
  | cons l ls ih =>
    intro lab lab' ht hne
    cases hh : headerOf (trimL l) with
    | some r =>
      obtain ⟨lv, t⟩ := r
      by_cases h2 : lv = 2
      · have hstep : restructureSpec lab (l :: ls) = restructureSpec t ls := by
          rw [restructureSpec, hh]; simp [h2]
        rw [hstep]
        obtain ⟨ht', hne'⟩ := headerOf_title_facts hh
        exact ih t lab' ht' hne'
      · by_cases h3 : lv = 3
        · have hstep : restructureSpec lab (l :: ls) =
              hdr2 lab :: l :: restructureSpec lab ls := by
            rw [restructureSpec, hh]; simp [h2, h3]
          rw [hstep]
          rw [restructureSpec, headerOf_trim_hdr2 lab ht hne]
          simp only [if_pos]
          rw [restructureSpec, hh]
          simp only [h2, h3, if_neg, if_pos, if_true, if_false]
          rw [ih lab lab ht hne]
          simp
        · have hstep : restructureSpec lab (l :: ls) = l :: restructureSpec lab ls := by
            rw [restructureSpec, hh]; simp [h2, h3]
          rw [hstep]
          rw [restructureSpec, hh]
          simp only [h2, h3, if_neg, if_false]
          rw [ih lab lab' ht hne]
    | none =>
      have hstep : restructureSpec lab (l :: ls) = l :: restructureSpec lab ls := by
        rw [restructureSpec, hh]
      rw [hstep]
      rw [restructureSpec, hh]
      rw [ih lab lab' ht hne]

theorem splitLines_no_nl : ∀ (s : List Char), ∀ l ∈ splitLines s, '\n' ∉ l := by
  intro s
  induction s with
  | nil =>
    intro l hl
    simp [splitLines] at hl
    subst hl; simp
  | cons c cs ih =>
    intro l hl
    rw [splitLines] at hl
    by_cases hc : c = '\n'
    · rw [if_pos hc] at hl
      rcases List.mem_cons.mp hl with h1 | h1
      · subst h1; simp
      · exact ih l h1
    · rw [if_neg hc] at hl
      cases hsp : splitLines cs with
      | nil =>
        rw [hsp] at hl
        simp at hl
        subst hl
        intro hm
        have hm2 : '\n' = c := by simpa using hm
        exact hc hm2.symm
      | cons x xs =>
        rw [hsp] at hl
        rcases List.mem_cons.mp hl with h1 | h1
        · subst h1
          intro hmem
          rcases List.mem_cons.mp hmem with h2 | h2
          · exact hc h2.symm
          · exact ih x (by rw [hsp]; simp) h2
        · exact ih l (by rw [hsp]; simp [h1])

theorem mem_dropWhile {α : Type} {p : α → Bool} {a : α} {l : List α}
    (h : a ∈ l.dropWhile p) : a ∈ l :=
  (List.dropWhile_sublist p).mem h

theorem mem_trimL {a : Char} {l : Line} (h : a ∈ trimL l) : a ∈ l := by
  rw [trimL, trimEndL] at h
  rw [List.mem_reverse] at h
  have h2 := mem_dropWhile h
  rw [List.mem_reverse] at h2
  exact mem_dropWhile h2

theorem headerOf_title_mem {l : Line} {lv : Nat} {t : Line}
    (h : headerOf l = some (lv, t)) : ∀ a ∈ t, a ∈ l := by
  intro a ha
  rw [headerOf] at h
  split at h
  · split at h
    · split at h
      · split at h
        · simp at h
        · have hth : t = trimL ((l.dropWhile fun c => c = '#').dropWhile isWs) := by
            have := h; simp at this; exact this.2.symm
          rw [hth] at ha
          exact mem_dropWhile (mem_dropWhile (mem_trimL ha))
      · simp at h
    · simp at h
  · simp at h

theorem restructureSpec_no_nl :
    ∀ (ls : List Line) (lab : Line), (∀ l ∈ ls, '\n' ∉ l) → '\n' ∉ lab →
      ∀ l' ∈ restructureSpec lab ls, '\n' ∉ l' := by
  intro ls
  induction ls with
  | nil => intro lab _ _ l' h; simp [restructureSpec] at h
  | cons l ls ih =>
    intro lab hls hlab l' hl'
    have hlnl : '\n' ∉ l := hls l (by simp)
    have hlsnl : ∀ x ∈ ls, '\n' ∉ x := fun x hx => hls x (by simp [hx])
    cases hh : headerOf (trimL l) with
    | some r =>
      obtain ⟨lv, t⟩ := r
      have htnl : '\n' ∉ t := by
        intro hm
        exact hlnl (mem_trimL (headerOf_title_mem hh '\n' hm))
      by_cases h2 : lv = 2
      · rw [restructureSpec, hh] at hl'
        simp only [h2, if_pos, if_true] at hl'
        exact ih t hlsnl htnl l' hl'
      · by_cases h3 : lv = 3
        · rw [restructureSpec, hh] at hl'
          simp only [h2, h3, if_neg, if_pos, if_true, if_false] at hl'
          rcases List.mem_cons.mp hl' with h1 | h1
          · subst h1
            intro hm
            rw [hdr2] at hm
            rcases List.mem_cons.mp hm with h4 | h4
            · simp at h4
            · rcases List.mem_cons.mp h4 with h5 | h5
              · simp at h5
              · rcases List.mem_cons.mp h5 with h6 | h6
                · simp at h6
                · exact hlab h6
          · rcases List.mem_cons.mp h1 with h4 | h4
            · subst h4; exact hlnl
            · exact ih lab hlsnl hlab l' h4
        · rw [restructureSpec, hh] at hl'
          simp only [h2, h3, if_neg, if_false] at hl'
          rcases List.mem_cons.mp hl' with h1 | h1
          · subst h1; exact hlnl
          · exact ih lab hlsnl hlab l' h1
    | none =>
      rw [restructureSpec, hh] at hl'
      rcases List.mem_cons.mp hl' with h1 | h1
      · subst h1; exact hlnl
      · exact ih lab hlsnl hlab l' h1

theorem splitLines_append_nl (l : Line) (rest : List Char) (h : '\n' ∉ l) :
    splitLines (l ++ '\n' :: rest) = l :: splitLines rest := by
  induction l with
  | nil => simp [splitLines]
  | cons c cs ih =>
    have hc : c ≠ '\n' := by intro e; exact h (by simp [e])
    rw [List.cons_append, splitLines, if_neg hc]
    rw [ih (fun hm => h (by simp [hm]))]

theorem splitLines_eq_self (l : Line) (h : '\n' ∉ l) : splitLines l = [l] := by
  induction l with
  | nil => rfl
  | cons c cs ih =>
    have hc : c ≠ '\n' := by intro e; exact h (by simp [e])
    rw [splitLines, if_neg hc, ih (fun hm => h (by simp [hm]))]

theorem split_join : ∀ (rs : List Line), rs ≠ [] → (∀ l ∈ rs, '\n' ∉ l) →
    splitLines (joinLines rs) = rs := by
  intro rs
  induction rs with
  | nil => intro h; exact absurd rfl h
  | cons l rest ih =>
    intro _ h
    cases rest with
    | nil => rw [joinLines]; exact splitLines_eq_self l (h l (by simp))
    | cons m ms =>
      have hj : joinLines (l :: m :: ms) = l ++ '\n' :: joinLines (m :: ms) := rfl
      rw [hj, splitLines_append_nl l _ (h l (by simp))]
      rw [ih (List.cons_ne_nil m ms) (fun x hx => h x (by simp [hx]))]

/-- C4: `convertMdToMd` is idempotent.  Holds unconditionally: after one
pass every level-3 heading line is immediately preceded by its
synthesized level-2 label line, which parses back to a level-2 heading
with the same title, so the second pass drops it and re-synthesizes it
identically. -/
theorem C4_restructure_idempotent (content : List Char) :
    convertMdToMd (convertMdToMd content) = convertMdToMd content := by
  rw [convertMdToMd_eq_spec content, convertMdToMd_eq_spec]
  cases hcase : restructureSpec unclassified (splitLines content) with
  | nil => rfl
  | cons x xs =>
    rw [← hcase]
    have hnl : ∀ l ∈ restructureSpec unclassified (splitLines content), '\n' ∉ l := by
      apply restructureSpec_no_nl
      · exact splitLines_no_nl content
      · decide
    rw [split_join _ (by rw [hcase]; simp) hnl]
    have := restructureSpec_idem (splitLines content) unclassified unclassified
      (by decide) (by decide)
    rw [this]

mutual
theorem roundtrip_node : ∀ (n : Node) (ctr : Nat), noEmptyTitles n = true →
    topicToNode (buildTopic n ctr).1 = n
  | Node.mk title note children, ctr, h => by
    rw [noEmptyTitles, Bool.and_eq_true, Bool.not_eq_true'] at h
    obtain ⟨ht, hc⟩ := h
    have htne : title ≠ [] := by
      cases title with
      | nil => simp at ht
      | cons c cs => simp
    have hrec := roundtrip_nodes children (ctr + 1) hc
    rw [buildTopic]
    simp only
    simp only [topicToNode.eq_def]
    rw [displayTitle]
    simp only [if_neg htne]
    congr 1
    · rw [getNote]
      by_cases hn : note = []
      · simp [hn]
      · simp [hn]
    · cases hb : (buildTopics children (ctr + 1)).1 with
      | nil =>
        rw [hb] at hrec
        exact hrec
      | cons b bs =>
        rw [hb] at hrec
        exact hrec
theorem roundtrip_nodes : ∀ (ns : List Node) (ctr : Nat), noEmptyTitlesList ns = true →
    topicToNodeList (buildTopics ns ctr).1 = ns
  | [], _, _ => rfl
  | n :: ns, ctr, h => by
    rw [noEmptyTitlesList, Bool.and_eq_true] at h
    obtain ⟨h1, h2⟩ := h
    rw [buildTopics]
    simp only
    rw [topicToNodeList]
    rw [roundtrip_node n ctr h1, roundtrip_nodes ns (buildTopic n ctr).2 h2]
end

/-- C2 counterexample: a tree whose root carries a note loses that note
across the writer/reader round trip (the writer rebuilds the root topic
from only the title and children). -/
theorem C2_roundtrip_counterexample :
    packageToTree (treeToPackage (Node.mk "T".toList "n".toList [])) =
      some (Node.mk "T".toList [] []) ∧ "n".toList ≠ ([] : Line) :=
  ⟨rfl, by decide⟩

/-- C2 (amended): for every tree all of whose titles are non-empty and
whose root has no note, reading back the written package reproduces the
tree exactly — in particular title and note of every node, and child
count and order at every level, are preserved; ids are regenerated and
not compared.  (The writer drops a root note, and empty titles come
back as placeholder titles.) -/
theorem C2_roundtrip_amended (t : Node) (h : noEmptyTitles t = true) (hn : t.note = []) :
    packageToTree (treeToPackage t) = some t := by
  obtain ⟨title, note, children⟩ := t
  rw [Node.note] at hn
  subst hn
  have htne : title ≠ [] := by
    rw [noEmptyTitles, Bool.and_eq_true, Bool.not_eq_true'] at h
    cases title with
    | nil => simp at h
    | cons c cs => simp
  rw [treeToPackage]
  simp only [Node.title, Node.children, if_neg htne]
  rw [packageToTree]
  simp only [sheetTopic]
  rw [roundtrip_node (Node.mk title [] children) 0 h]

/-- Witness for the amended C2 at a concrete two-level tree. -/
theorem C2_roundtrip_amended_witness :
    noEmptyTitles (Node.mk "A".toList [] [Node.mk "B".toList "nb".toList []]) = true ∧
      packageToTree (treeToPackage (Node.mk "A".toList [] [Node.mk "B".toList "nb".toList []])) =
        some (Node.mk "A".toList [] [Node.mk "B".toList "nb".toList []]) :=
  ⟨by decide, C2_roundtrip_amended _ (by decide) rfl⟩

/-! Header-mode rendering facts. -/
theorem takeWhile_hash_hashRep (n : Nat) (rest : Line) :
    (hashRep n ++ ' ' :: rest).takeWhile (fun c => c = '#') = hashRep n := by
  induction n with
  | zero =>
    rw [hashRep, List.replicate_zero, List.nil_append]
    exact List.takeWhile_cons_of_neg (by decide)
  | succ k ih =>
    rw [hashRep, List.replicate_succ, List.cons_append,
      List.takeWhile_cons_of_pos (by decide), ← hashRep, ih]

theorem takeWhile_hash_bullet (k : Nat) (rest : Line) :
    (List.replicate k ' ' ++ '-' :: rest).takeWhile (fun c => c = '#') = [] := by
  cases k with
  | zero =>
    rw [List.replicate_zero, List.nil_append]
    exact List.takeWhile_cons_of_neg (by decide)
  | succ m =>
    rw [List.replicate_succ, List.cons_append]
    exact List.takeWhile_cons_of_neg (by decide)

theorem mem_noteBlockH {t : Topic} {l : Line} (h : l ∈ noteBlockH t) :
    l = [] ∨ ∃ nl, l = '>' :: ' ' :: nl := by
  rw [noteBlockH] at h
  split at h
  · simp at h
  · rcases List.mem_cons.mp h with h1 | h1
    · exact Or.inl h1
    · rcases List.mem_append.mp h1 with h2 | h2
      · obtain ⟨nl, _, hnl⟩ := List.mem_map.mp h2
        exact Or.inr ⟨nl, hnl.symm⟩
      · simp at h2
        exact Or.inl h2

mutual
theorem toHeaderMd_hash_bound : ∀ (t : Topic) (level : Nat) (l : Line),
    l ∈ toHeaderMd t level → (l.takeWhile (fun c => c = '#')).length ≤ 6
  | ⟨i, title, np, nf, attached, detached⟩, level, l, hl => by
    simp only [toHeaderMd.eq_def, List.mem_append] at hl
    rcases hl with ((h1 | h2) | h3) | h4
    · by_cases h6 : level ≤ 6
      · rw [if_pos h6] at h1
        simp at h1
        rw [h1, takeWhile_hash_hashRep, hashRep, List.length_replicate]
        exact h6
      · rw [if_neg h6] at h1
        simp at h1
        rw [h1, spaceRep, takeWhile_hash_bullet]
        simp
    · rcases mem_noteBlockH h2 with h | ⟨nl, h⟩
      · rw [h]; simp
      · rw [h, List.takeWhile_cons_of_neg (by decide)]
        simp
    · rcases hatt : attached with _ | la
      · rcases hdet : detached with _ | ld
        · rw [hatt, hdet] at h3
          simp at h3
        · rw [hatt, hdet] at h3
          exact toHeaderMdList_hash_bound ld (level + 1) l h3
      · rw [hatt] at h3
        exact toHeaderMdList_hash_bound la (level + 1) l h3
    · by_cases h3' : level ≤ 3
      · rw [if_pos h3'] at h4
        simp at h4
        rw [h4]
        simp
      · rw [if_neg h3'] at h4
        simp at h4
theorem toHeaderMdList_hash_bound : ∀ (ts : List Topic) (level : Nat) (l : Line),
    l ∈ toHeaderMdList ts level → (l.takeWhile (fun c => c = '#')).length ≤ 6
  | [], _, l, hl => by rw [toHeaderMdList] at hl; simp at hl
  | c :: cs, lv, l, hl => by
    rw [toHeaderMdList] at hl
    rcases List.mem_append.mp hl with h1 | h2
    · exact toHeaderMd_hash_bound c lv l h1
    · exact toHeaderMdList_hash_bound cs lv l h2
end

theorem toHeaderMd_head (t : Topic) (level : Nat) :
    (toHeaderMd t level).head? =
      some (if level ≤ 6 then hashRep level ++ ' ' :: displayTitle t
            else spaceRep (level - 7) ++ '-' :: ' ' :: displayTitle t) := by
  obtain ⟨i, title, np, nf, attached, detached⟩ := t
  simp only [toHeaderMd.eq_def]
  by_cases h6 : level ≤ 6
  · rw [if_pos h6, if_pos h6]
    rfl
  · rw [if_neg h6, if_neg h6]
    rfl

theorem toHeaderMd_ne_nil (t : Topic) (level : Nat) : toHeaderMd t level ≠ [] := by
  intro h
  have := toHeaderMd_head t level
  rw [h] at this
  simp at this

/-- C6: header mode renders a node at depth `D ≤ 6` as `D` hashes, a
space and the title and at deeper depths as an indented bullet
(`2*(D-7)` spaces, a dash, the title), and no emitted line starts with a
run of more than six `'#'` characters. -/
theorem C6_header_level_clamp :
    (∀ (t : Topic) (level : Nat), (toHeaderMd t level).head? =
        some (if level ≤ 6 then hashRep level ++ ' ' :: displayTitle t
              else spaceRep (level - 7) ++ '-' :: ' ' :: displayTitle t))
    ∧ (∀ (t : Topic) (level : Nat) (l : Line), l ∈ toHeaderMd t level →
        (l.takeWhile (fun c => c = '#')).length ≤ 6) :=
  ⟨toHeaderMd_head, toHeaderMd_hash_bound⟩

/-- Witness for C6 at a deep level and at a concrete emitted line. -/
theorem C6_header_level_clamp_witness :
    (toHeaderMd (⟨0, "A".toList, none, none, none, none⟩ : Topic) 8).head? =
      some (spaceRep 1 ++ '-' :: ' ' ::
        displayTitle (⟨0, "A".toList, none, none, none, none⟩ : Topic))
    ∧ (("# A".toList).takeWhile (fun c => c = '#')).length ≤ 6 :=
  ⟨C6_header_level_clamp.1 _ 8,
   C6_header_level_clamp.2 (⟨0, "A".toList, none, none, none, none⟩ : Topic) 1
     "# A".toList (by decide)⟩

/-! Multi-sheet concatenation. -/
theorem joinLines_append : ∀ (A B : List Line), A ≠ [] → B ≠ [] →
    joinLines (A ++ B) = joinLines A ++ '\n' :: joinLines B
  | [], _, hA, _ => absurd rfl hA
  | [a], B, _, hB => by
    cases B with
    | nil => exact absurd rfl hB
    | cons b bs => rfl
  | a :: a2 :: as2, B, _, hB => by
    have hrec := joinLines_append (a2 :: as2) B (by simp) hB
    have hj : joinLines ((a :: a2 :: as2) ++ B) =
        a ++ '\n' :: joinLines ((a2 :: as2) ++ B) := rfl
    rw [hj, hrec]
    have hj2 : joinLines (a :: a2 :: as2) = a ++ '\n' :: joinLines (a2 :: as2) := rfl
    rw [hj2]
    simp

theorem flatMapL_ne_nil {α : Type} (f : α → List Line) (x : α) (xs : List α)
    (hx : f x ≠ []) : flatMapL f (x :: xs) ≠ [] := by
  rw [flatMapL]
  intro h
  rcases List.append_eq_nil.mp h with ⟨h1, _⟩
  exact hx h1

theorem joinLines_flatMapL {α : Type} (f : α → List Line) :
    ∀ (xs : List α), (∀ x ∈ xs, f x ≠ []) →
      joinLines (xs.map (fun x => joinLines (f x))) = joinLines (flatMapL f xs)
  | [], _ => rfl
  | [x], _ => by
    rw [flatMapL, flatMapL, List.map_singleton, joinLines, List.append_nil]
  | x :: y :: ys, h => by
    have hrec := joinLines_flatMapL f (y :: ys) (fun z hz => h z (by simp [hz]))
    have hj : joinLines ((x :: y :: ys).map (fun x => joinLines (f x))) =
        joinLines (f x) ++ '\n' :: joinLines ((y :: ys).map (fun x => joinLines (f x))) := rfl
    rw [hj, hrec]
    rw [show flatMapL f (x :: y :: ys) = f x ++ flatMapL f (y :: ys) from rfl]
    rw [joinLines_append (f x) (flatMapL f (y :: ys)) (h x (by simp))
      (flatMapL_ne_nil f y ys (h y (by simp)))]

theorem toHeaderMd_getLast (t : Topic) : (toHeaderMd t 1).getLast? = some ([] : Line) := by
  obtain ⟨i, title, np, nf, attached, detached⟩ := t
  simp only [toHeaderMd.eq_def]
  rw [if_pos (by omega : (1 : Nat) ≤ 3)]
  exact List.getLast?_concat _

/-- C9 counterexample: a two-sheet package rendered in list mode: the
two sheets' outputs are joined by a single newline, and neither the end
of the first output nor the start of the second is a blank line, so no
separating blank line appears between them. -/
theorem C9_multisheet_counterexample :
    sheetsToMarkdown
        [⟨0, [], some ⟨0, "A".toList, none, none,
            some [⟨1, "a".toList, none, none, none, none⟩], none⟩, none⟩,
         ⟨0, [], some ⟨0, "B".toList, none, none,
            some [⟨1, "b".toList, none, none, none, none⟩], none⟩, none⟩]
        MdFormat.list = "# A\n\n- a\n# B\n\n- b".toList
    ∧ (toListMd ⟨0, "A".toList, none, none,
        some [⟨1, "a".toList, none, none, none, none⟩], none⟩ 0).getLast? ≠
          some ([] : Line)
    ∧ (toListMd ⟨0, "B".toList, none, none,
        some [⟨1, "b".toList, none, none, none, none⟩], none⟩ 0).head? ≠
          some ([] : Line) :=
  ⟨rfl, by decide, by decide⟩

/-- C9 (amended): multi-sheet outputs are concatenated joined by a
single newline in both modes; in header mode every sheet's output ends
with an empty line (the trailing blank emitted at depths ≤ 3), so a
blank line does separate consecutive sheets there — but not in list
mode, whose outputs need not start or end blank. -/
theorem C9_multisheet_amended :
    (∀ sheets : List SheetJ, sheetsToMarkdown sheets MdFormat.header =
        joinLines (flatMapL (fun t => toHeaderMd t 1) (sheets.filterMap sheetTopic)))
    ∧ (∀ t : Topic, (toHeaderMd t 1).getLast? = some ([] : Line)) := by
  constructor
  · intro sheets
    rw [sheetsToMarkdown]
    exact joinLines_flatMapL (fun t => toHeaderMd t 1) (sheets.filterMap sheetTopic)
      (fun t _ => toHeaderMd_ne_nil t 1)
  · exact toHeaderMd_getLast

/-- C8 counterexample: (1) an archive whose only entry is the valid JSON
`CONTENT.JSON` is not recognized — the lookup tries exactly
`content.json` and `Content.json`, it is not case-insensitive — so the
reader reports the unsupported-format error instead of preferring the
JSON entry; (2) a well-formed but structurally empty JSON content (an
empty array) is accepted and silently produces empty output. -/
theorem C8_reader_counterexample :
    readPackageSheets
        [⟨"CONTENT.JSON".toList,
          some (JsonData.arr [⟨0, [], some ⟨0, "A".toList, none, none, none, none⟩, none⟩]),
          []⟩] =
      Except.error ConvError.unsupportedFormat
    ∧ xmindZipToMarkdown [⟨"content.json".toList, some (JsonData.arr []), []⟩]
        MdFormat.header = Except.ok [] :=
  ⟨rfl, rfl⟩

/-- C8 (amended): the reader prefers a JSON entry named exactly
`content.json` or `Content.json`: a present entry with a failed JSON
parse is the reported parse error; a present well-formed entry is used
(even when XML entries also exist); with no JSON-named entry and no
entry named exactly `content.xml` or `Content.xml` the reader reports
the unsupported-format error.  Every outcome is an explicit result or
error, though structurally empty JSON yields `ok` with no sheets. -/
theorem C8_reader_amended :
    (∀ (z : List ZEntry) (f : ZEntry),
        orElseO (zfile z "content.json".toList) (zfile z "Content.json".toList) = some f →
        f.jsonParse = none →
        readPackageSheets z = Except.error ConvError.jsonParseFailed)
    ∧ (∀ (z : List ZEntry) (f : ZEntry) (d : JsonData),
        orElseO (zfile z "content.json".toList) (zfile z "Content.json".toList) = some f →
        f.jsonParse = some d →
        readPackageSheets z = Except.ok (sheetsOfJson d))
    ∧ (∀ z : List ZEntry,
        zfile z "content.json".toList = none → zfile z "Content.json".toList = none →
        zfile z "content.xml".toList = none → zfile z "Content.xml".toList = none →
        readPackageSheets z = Except.error ConvError.unsupportedFormat) := by
  refine ⟨?_, ?_, ?_⟩
  · intro z f hsel hjson
    rw [readPackageSheets, hsel]
    simp only [readJsonEntry, hjson]
  · intro z f d hsel hjson
    rw [readPackageSheets, hsel]
    simp only [readJsonEntry, hjson]
  · intro z h1 h2 h3 h4
    rw [readPackageSheets, h1, h2]
    rw [orElseO]
    rw [h3, h4]
    rw [orElseO]

/-- Witness for the amended C8 at concrete archives. -/
theorem C8_reader_amended_witness :
    readPackageSheets [⟨"Content.json".toList, none, []⟩] =
      Except.error ConvError.jsonParseFailed
    ∧ readPackageSheets
        [⟨"content.json".toList,
          some (JsonData.single ⟨0, [], none, none⟩), []⟩] =
      Except.ok [⟨0, [], none, none⟩]
    ∧ readPackageSheets [⟨"other.txt".toList, none, []⟩] =
      Except.error ConvError.unsupportedFormat :=
  ⟨C8_reader_amended.1 _ ⟨"Content.json".toList, none, []⟩ rfl rfl,
   C8_reader_amended.2.1
     [⟨"content.json".toList, some (JsonData.single ⟨0, [], none, none⟩), []⟩]
     ⟨"content.json".toList, some (JsonData.single ⟨0, [], none, none⟩), []⟩
     (JsonData.single ⟨0, [], none, none⟩) rfl rfl,
   C8_reader_amended.2.2 _ rfl rfl rfl rfl⟩

/-! XML fallback facts. -/
theorem scanFirstO_none {α : Type} (m : List Char → Option α) :
    ∀ (s : List Char), (∀ i, i ≤ s.length → m (s.drop i) = none) → scanFirstO m s = none
  | [], h => by
    rw [scanFirstO]
    exact h 0 (by simp)
  | c :: cs, h => by
    rw [scanFirstO]
    have h0 : m (c :: cs) = none := h 0 (by simp)
    rw [h0]
    exact scanFirstO_none m cs (fun i hi => h (i + 1) (by simpa using hi))

theorem titleAt_none {s : List Char} (h : ciStarts "<title>".toList s = false) :
    titleAt s = none := by
  rw [titleAt]
  rw [if_neg (by intro hcontra; rw [h] at hcontra; exact Bool.false_ne_true hcontra)]

/-- C10: a topic block with no occurrence of the `<title>` opening (so
the title pattern cannot match at any position) gets the placeholder
title `未命名主题`; when the notes/plain extraction succeeds with body
`pb.1`, the attached note is that body with every `<…>` tag span
removed and surrounding whitespace trimmed (attached only when
non-empty). -/
theorem C10_xml_title_fallback_and_note_strip :
    (∀ s : List Char,
        (∀ i, i ≤ s.length → ciStarts "<title>".toList (s.drop i) = false) →
        (parseXMLTopic s).title = untitled)
    ∧ (∀ (s : List Char) (nb pb : List Char × List Char),
        scanFirstO (litElemAt "notes".toList) s = some nb →
        scanFirstO (litElemAt "plain".toList) nb.1 = some pb →
        (parseXMLTopic s).notesPlain =
          (if trimL (stripTags pb.1) = [] then none
           else some (trimL (stripTags pb.1)))) := by
  constructor
  · intro s h
    have hnone : scanFirstO titleAt s = none :=
      scanFirstO_none titleAt s (fun i hi => titleAt_none (h i hi))
    rw [parseXMLTopic, parseXMLTopicGo]
    simp only [hnone]
  · intro s nb pb h1 h2
    rw [parseXMLTopic, parseXMLTopicGo]
    simp only [h1, h2]

/-- Witness for C10 at concrete XML blocks. -/
theorem C10_xml_title_fallback_and_note_strip_witness :
    (parseXMLTopic "<topic><x/></topic>".toList).title = untitled
    ∧ (parseXMLTopic
        "<topic><notes><plain> hi <b>x</b> </plain></notes></topic>".toList).notesPlain =
        some "hi x".toList :=
  ⟨C10_xml_title_fallback_and_note_strip.1 _ (by decide),
   (C10_xml_title_fallback_and_note_strip.2 _
      ("<plain> hi <b>x</b> </plain>".toList, "</topic>".toList)
      (" hi <b>x</b> ".toList, ([] : List Char))
      (by decide) (by decide)).trans (by decide)⟩

end XmindMd
